import Mathlib

/-!
# pulse-meter: a console VU meter (`vumeter.c`)

A shallow embedding of the callbacks of `vumeter.c` and the properties of the
level meter, the fragment processor, the renderer and the device-info callback.

Modelling conventions.

* A finite `float` is the rational number it denotes.  `fabs` and `>` are exact
  on floats, so the peak computation is exact.  The arithmetic operations of the
  downmix (`+=`, `/=`, `*`) return the rounding `fl` of the exact result, where
  `fl : ℚ → ℚ` is the rounding of the float format, a field of `Env`.  The
  general results hold for every monotone rounding that is exact on small
  integers (`IsRounding`); `fl32` is round-to-nearest-even of binary32, and it
  is such a rounding.  NaN and the infinities are outside the model.
* `int __main_loop` is an `Int` kept in the range of a 32-bit `int` by `wrap_int`;
  the C operator `%` is `Int.tmod` (truncating remainder).
* The conversion of a float to `unsigned int` truncates toward zero and keeps the
  low 32 bits.
* The globals of the program and the text written to the two output streams form
  one `State`; each callback is a function `State → State`.
-/

namespace VuMeter

/-! ## Data model -/

/-- The global `unsigned int nchan = 2` (hardcoded stereo, never assigned). -/
def nchan : Nat := 2

/-- The sample encodings of a `pa_sample_spec` that matter here. -/
inductive SampleFormat where
  | U8
  | S16LE
  | FLOAT32
  deriving DecidableEq, Repr

/-- A `pa_sample_spec`: encoding, rate and channel count. -/
structure SampleSpec where
  format : SampleFormat
  rate : Nat
  channels : Nat
  deriving DecidableEq, Repr

/-- A `pa_sink_info`, restricted to the three fields the program reads. -/
structure SinkInfo where
  monitor_source_name : List Char
  sample_spec : SampleSpec
  channel_map : List Nat
  deriving DecidableEq, Repr

/-- A stream as made by `pa_stream_new` and `pa_stream_connect_record`: the
sample spec and channel map it was created with and the source it records. -/
structure Stream where
  spec : SampleSpec
  cmap : List Nat
  source : List Char
  deriving DecidableEq, Repr

/-- What `pa_stream_peek` hands back: its return value, the buffer `p` viewed as
an array of floats (`p i` is `((float *) p)[i]`) and the byte length of the
fragment.  The transport carries fragment lengths in 32 bits, so the count
`length / sizeof(float)` fits the `unsigned int samples`. -/
structure Peek where
  ret : Int
  p : Nat → ℚ
  length : Nat
  length_lt : length < 2 ^ 32

/-- The behaviour of the platform and of the library functions the program
calls: the rounding `fl` of the float format, the text of
`pa_strerror(pa_context_errno(context))`, and the two `snprint` helpers. -/
structure Env where
  fl : ℚ → ℚ
  strerror : List Char
  sample_spec_snprint : SampleSpec → List Char
  channel_map_snprint : List Nat → List Char

/-- The globals of `vumeter.c` together with what the program has written and
the calls it has made to the transport.
`rendered` lists the arguments of the calls to `progress`, `created` the streams
made by `pa_stream_new` and `drops` counts the calls to `pa_stream_drop`. -/
structure State where
  levels : Nat → ℚ
  __main_loop : Int
  stream : Option Stream
  stdout : List Char
  stderr : List Char
  rendered : List Nat
  created : List Stream
  drops : Nat

/-- The state at program start: `levels = {-1.0, -1.0}`, `__main_loop = 0`,
`stream = NULL`, nothing written. -/
def init : State :=
  { levels := fun _ => -1
    __main_loop := 0
    stream := none
    stdout := []
    stderr := []
    rendered := []
    created := []
    drops := 0 }

/-! ## Machine arithmetic -/

/-- A value brought back into the range of a 32-bit `int`. -/
def wrap_int (x : Int) : Int := (x + 2 ^ 31) % 2 ^ 32 - 2 ^ 31

/-- Truncation of a float toward zero. -/
def trunc (x : ℚ) : Int := if 0 ≤ x then ⌊x⌋ else ⌈x⌉

/-- Conversion of a float to `unsigned int`: truncate, keep the low 32 bits. -/
def to_unsigned (x : ℚ) : Nat := (trunc x % 2 ^ 32).toNat

/-- The text `printf` produces for `%d` given an `unsigned int` argument: the
32 bits are read as an `int`. -/
def fmt_d (level : Nat) : List Char :=
  if level < 2 ^ 31 then Nat.toDigits 10 level
  else '-' :: Nat.toDigits 10 (2 ^ 32 - level)

/-! ## The functions `show_error` and `progress` -/

/-- The function `show_error`: writes `txt: <error description>\n` to the error stream. -/
def show_error (E : Env) (txt : List Char) (s : State) : State :=
  { s with stderr := s.stderr ++ (txt ++ ": ".toList ++ E.strerror ++ "\n".toList) }

/-- The loop `for(; i < level; i++) printf("#");` of `progress`; returns the
final `i` and the output. -/
def progress_fill (level i : Nat) (out : List Char) : Nat × List Char :=
  if i < level then progress_fill level (i + 1) (out ++ "#".toList) else (i, out)
termination_by level - i

/-- The loop `for(; i < 100; i++) printf(" ");` of `progress`. -/
def progress_pad (i : Nat) (out : List Char) : Nat × List Char :=
  if i < 100 then progress_pad (i + 1) (out ++ " ".toList) else (i, out)
termination_by 100 - i

/-- The function `progress`: the characters it appends to standard output. -/
def progress (level : Nat) (out : List Char) : List Char :=
  let i := 0
  let out := out ++ "[".toList
  let (i, out) := progress_fill level i out
  let (_, out) := progress_pad i out
  out ++ ("] ".toList ++ fmt_d level ++ "%  \r".toList)

/-! ## The function `stream_read_callback` -/

/-- The inner loop of the level computation, for the frame at `data`:
`for (c = 0; c < nchan; c++) { v = fabs(data[c]); if (v > levels[c]) levels[c] = v; }`
started at channel `c`. -/
def frame_loop (data : Nat → ℚ) (c : Nat) (levels : Nat → ℚ) : Nat → ℚ :=
  if c < nchan then
    let v := |data c|
    frame_loop data (c + 1) (if v > levels c then Function.update levels c v else levels)
  else levels
termination_by nchan - c

/-- The outer loop of the level computation:
`while (samples >= nchan) { <frame_loop>; data += nchan; samples -= nchan; }`
where `data` is `p + off`. -/
def sample_loop (p : Nat → ℚ) (off samples : Nat) (levels : Nat → ℚ) : Nat → ℚ :=
  if nchan ≤ samples then
    sample_loop p (off + nchan) (samples - nchan) (frame_loop (fun c => p (off + c)) 0 levels)
  else levels
termination_by samples
decreasing_by
  have h : 0 < nchan := by decide
  omega

/-- The downmix loop `for (c = 0; c < nchan; c++) average += levels[c];`
started at channel `c`. -/
def average_loop (fl : ℚ → ℚ) (levels : Nat → ℚ) (c : Nat) (average : ℚ) : ℚ :=
  if c < nchan then average_loop fl levels (c + 1) (fl (average + levels c)) else average
termination_by nchan - c

/-- Lines 86 to 93: the percent computed from the levels.
`average = 0.0; <average_loop>; average /= nchan; percent = (average * 100);` -/
def percent_of (fl : ℚ → ℚ) (levels : Nat → ℚ) : Nat :=
  let average := average_loop fl levels 0 0
  let average := fl (average / (nchan : ℚ))
  to_unsigned (fl (average * 100))

/-- The first statement of `stream_read_callback`:
`if(__main_loop++ % 32 == 0) memset((void *) levels, 0, sizeof(levels));` -/
def decay (s : State) : State :=
  { s with
    levels := if Int.tmod s.__main_loop 32 = 0 then fun _ => 0 else s.levels
    __main_loop := wrap_int (s.__main_loop + 1) }

/-- The function `stream_read_callback`, given what `pa_stream_peek` returns in this call. -/
def stream_read_callback (E : Env) (pk : Peek) (s : State) : State :=
  let s := decay s
  if pk.ret < 0 then
    { s with stderr := s.stderr ++ ("pa_stream_peek() failed: ".toList ++ E.strerror) }
  else
    let samples := (pk.length / 4) % 2 ^ 32
    let levels := sample_loop pk.p 0 samples s.levels
    let percent := percent_of E.fl levels
    { s with
      levels := levels
      stdout := progress percent s.stdout
      rendered := s.rendered ++ [percent]
      drops := s.drops + 1 }

/-- The state after the transport has invoked `stream_read_callback` once for
each element of `pks`, in order. -/
def run (E : Env) (pks : List Peek) (s : State) : State :=
  pks.foldl (fun s pk => stream_read_callback E pk s) s

/-! ## The device-info callback -/

/-- The function `create_stream`: it makes a float32 stream with the rate,
channel count and channel map of the sink and records from the monitor source
`name`; the new stream replaces the global `stream`. -/
def create_stream (E : Env) (name : List Char) (ss : SampleSpec) (cmap : List Nat)
    (s : State) : State :=
  let nss : SampleSpec := { format := SampleFormat.FLOAT32, rate := ss.rate, channels := ss.channels }
  let st : Stream := { spec := nss, cmap := cmap, source := name }
  { s with
    stdout := s.stdout
      ++ ("Using sample format: ".toList ++ E.sample_spec_snprint nss ++ "\n".toList)
      ++ ("Using channel map: ".toList ++ E.channel_map_snprint cmap ++ "\n".toList)
    stream := some st
    created := s.created ++ [st] }

/-- The function `context_get_sink_info_callback`; `si = none` is the null pointer. -/
def context_get_sink_info_callback (E : Env) (si : Option SinkInfo) (is_last : Int)
    (s : State) : State :=
  if is_last < 0 then
    show_error E "Failed to get sink information".toList s
  else
    match si with
    | none => s
    | some si => create_stream E si.monitor_source_name si.sample_spec si.channel_map s

/-- The state after the transport has delivered the device-info notifications
`evs`, in order. -/
def sink_info_run (E : Env) (evs : List (Option SinkInfo × Int)) (s : State) : State :=
  evs.foldl (fun s ev => context_get_sink_info_callback E ev.1 ev.2 s) s

/-! ## Specification-side definitions -/

/-- The number of complete frames of a fragment: `floor(floor(length / 4) / nchan)`. -/
def frames (pk : Peek) : Nat := pk.length / 4 / nchan

/-- The absolute values of the samples of channel `c` in the complete frames of
a fragment, in order. -/
def chan_samples (pk : Peek) (c : Nat) : List ℚ :=
  (List.range (frames pk)).map (fun f => |pk.p (f * nchan + c)|)

/-- The maximum of a list of values, `0` for the empty list. -/
def peak (xs : List ℚ) : ℚ := xs.foldl max 0

/-- The fragments from the most recent reset boundary (the latest index that is
a multiple of 32) up to and including fragment `k`. -/
def window (pks : List Peek) (k : Nat) : List Peek :=
  (pks.take (k + 1)).drop (32 * (k / 32))

/-- The absolute values of the samples of channel `c` in the complete frames of
the fragments of the window of fragment `k`. -/
def window_samples (pks : List Peek) (k c : Nat) : List ℚ :=
  (window pks k).flatMap (fun pk => chan_samples pk c)

/-- Every sample of the fragment has magnitude at most `1`. -/
def in_range (pk : Peek) : Prop := ∀ i, i < pk.length / 4 → |pk.p i| ≤ 1

instance (pk : Peek) : Decidable (in_range pk) := by
  unfold in_range
  infer_instance

/-- The levels `{l0, l1}` as an array. -/
def pair (l0 l1 : ℚ) : Nat → ℚ := fun c => if c = 0 then l0 else l1

/-- The value `average * 100` that `stream_read_callback` converts to
`unsigned int`, as a function of the levels. -/
def scaled_average (fl : ℚ → ℚ) (levels : Nat → ℚ) : ℚ :=
  fl (fl (average_loop fl levels 0 0 / (nchan : ℚ)) * 100)

/-- A notification that carries sink information and no error. -/
def valid_result (ev : Option SinkInfo × Int) : Bool :=
  ev.1.isSome && decide (0 ≤ ev.2)

/-! ## Float rounding -/

/-- What the proofs use of the rounding of the float format: it is monotone, and
exact on the integers up to `2 ^ 24` in magnitude (which a 24-bit significand
represents). -/
structure IsRounding (fl : ℚ → ℚ) : Prop where
  mono : Monotone fl
  exact_int : ∀ n : Int, |n| ≤ 2 ^ 24 → fl n = n

/-- Rounding to the nearest integer, ties to the even one. -/
def round_even (x : ℚ) : Int :=
  if x - ⌊x⌋ < 1 / 2 then ⌊x⌋
  else if 1 / 2 < x - ⌊x⌋ then ⌊x⌋ + 1
  else if ⌊x⌋ % 2 = 0 then ⌊x⌋ else ⌊x⌋ + 1

/-- The binary exponent of the binade of a positive `x` in binary32, where the
subnormal numbers share the exponent `-126`. -/
def binade (x : ℚ) : Int := max (Int.log 2 x) (-126)

/-- Rounding of a non-negative `x` to the binary32 grid of its binade (spacing
`2 ^ (binade x - 23)`), to nearest with ties to even. -/
def fl32_mag (x : ℚ) : ℚ :=
  (round_even (x / 2 ^ (binade x - 23)) : ℚ) * 2 ^ (binade x - 23)

/-- Round-to-nearest-even of binary32 (the C `float` of the usual platforms),
acting on sign and magnitude.  The exponent is not bounded above: results past
the largest float, which the hardware turns into an infinity, are outside the
model. -/
def fl32 (x : ℚ) : ℚ := if 0 ≤ x then fl32_mag x else -fl32_mag (-x)

/-! ## Concrete inputs -/

/-- An environment with binary32 arithmetic. -/
def f32_env : Env :=
  { fl := fl32
    strerror := "Connection refused".toList
    sample_spec_snprint := fun _ => "float32le 2ch 44100Hz".toList
    channel_map_snprint := fun _ => "front-left,front-right".toList }

/-- The float `0.3f`, the binary32 number nearest to `0.3`. -/
def f32_0_3 : ℚ := 5033165 / 16777216

/-- The float `0.01f`, the binary32 number nearest to `0.01`. -/
def f32_0_01 : ℚ := 5368709 / 536870912

/-- A failing `pa_stream_peek`. -/
def peek_failed : Peek := { ret := -1, p := fun _ => 0, length := 0, length_lt := by decide }

/-- A fragment of 13 bytes: one frame `(0.5, -0.25)`, one more sample `0.75` of
a partial frame, and one stray byte. -/
def frag_a : Peek :=
  { ret := 0
    p := fun i => if i = 0 then 1 / 2 else if i = 1 then -1 / 4 else 3 / 4
    length := 13
    length_lt := by decide }

/-- The fragment `frag_a` cut down to its one complete frame. -/
def frag_a_whole : Peek :=
  { ret := 0
    p := fun i => if i = 0 then 1 / 2 else if i = 1 then -1 / 4 else 0
    length := 8
    length_lt := by decide }

/-- A fragment of two frames `(-0.125, 0.5)` and `(0.25, -1.0)`. -/
def frag_b : Peek :=
  { ret := 0
    p := fun i => if i = 0 then -1 / 8 else if i = 1 then 1 / 2 else if i = 2 then 1 / 4 else -1
    length := 16
    length_lt := by decide }

/-- A fragment of one frame whose two samples are `2.0`. -/
def frag_loud : Peek := { ret := 0, p := fun _ => 2, length := 8, length_lt := by decide }

/-- A fragment of one frame whose two samples are `2 ^ 33`. -/
def frag_huge : Peek := { ret := 0, p := fun _ => 2 ^ 33, length := 8, length_lt := by decide }

/-- A sink description. -/
def sink_a : SinkInfo :=
  { monitor_source_name := "alsa_output.monitor".toList
    sample_spec := { format := SampleFormat.S16LE, rate := 44100, channels := 2 }
    channel_map := [1, 2] }

/-! ## The loops -/

theorem frame_loop_apply (data : Nat → ℚ) (c : Nat) (levels : Nat → ℚ) (i : Nat) :
    frame_loop data c levels i
      = if c ≤ i ∧ i < nchan then max (levels i) |data i| else levels i := by
  generalize h : nchan - c = n
  induction n generalizing c levels with
  | zero =>
    have hc : ¬ c < nchan := by omega
    rw [frame_loop, if_neg hc, if_neg (by omega)]
  | succ n ih =>
    have hc : c < nchan := by omega
    rw [frame_loop, if_pos hc, ih (c + 1) _ (by omega)]
    by_cases hi : i = c
    · subst hi
      have h1 : ¬ (i + 1 ≤ i ∧ i < nchan) := by omega
      have h2 : i ≤ i ∧ i < nchan := ⟨le_refl _, hc⟩
      rw [if_neg h1, if_pos h2]
      by_cases hv : |data i| > levels i
      · rw [if_pos hv, Function.update_same, max_eq_right (le_of_lt hv)]
      · rw [if_neg hv, max_eq_left (not_lt.mp hv)]
    · have hupd : (if |data c| > levels c then Function.update levels c |data c| else levels) i
          = levels i := by
        split
        · exact Function.update_noteq hi _ _
        · rfl
      rw [hupd]
      by_cases h1 : c + 1 ≤ i ∧ i < nchan
      · rw [if_pos h1, if_pos ⟨by omega, h1.2⟩]
      · have h2 : ¬ (c ≤ i ∧ i < nchan) := by omega
        rw [if_neg h1, if_neg h2]

theorem sample_loop_apply (p : Nat → ℚ) (off samples : Nat) (levels : Nat → ℚ) (c : Nat) :
    sample_loop p off samples levels c
      = if c < nchan then
          ((List.range (samples / nchan)).map (fun f => |p (off + f * nchan + c)|)).foldl
            max (levels c)
        else levels c := by
  induction samples using Nat.strong_induction_on generalizing off levels with
  | _ samples ih =>
    have hn : 0 < nchan := by decide
    by_cases hs : nchan ≤ samples
    · rw [sample_loop, if_pos hs, ih (samples - nchan) (by omega)]
      have hdiv : samples / nchan = (samples - nchan) / nchan + 1 := by
        rw [Nat.div_eq samples nchan, if_pos ⟨hn, hs⟩]
      by_cases hc : c < nchan
      · rw [if_pos hc, if_pos hc, hdiv, List.range_succ_eq_map, List.map_cons, List.foldl_cons,
          List.map_map, frame_loop_apply, if_pos ⟨Nat.zero_le _, hc⟩]
        have hfun : ((fun f => |p (off + f * nchan + c)|) ∘ Nat.succ)
            = fun f => |p (off + nchan + f * nchan + c)| := by
          funext f
          simp only [Function.comp, Nat.succ_eq_add_one]
          congr 2
          ring
        rw [hfun, Nat.zero_mul, Nat.add_zero]
      · rw [if_neg hc, if_neg hc, frame_loop_apply, if_neg (by omega)]
    · rw [sample_loop, if_neg hs]
      have hdiv : samples / nchan = 0 := Nat.div_eq_of_lt (by omega)
      simp [hdiv]

/-! ## The fragment counter -/

theorem wrap_int_succ (n : Int) : wrap_int (wrap_int n + 1) = wrap_int (n + 1) := by
  unfold wrap_int
  norm_num
  omega

theorem tmod_wrap_int (n : Nat) : Int.tmod (wrap_int n) 32 = 0 ↔ n % 32 = 0 := by
  have h1 : Int.tmod (wrap_int n) 32 = 0 ↔ (32 : Int) ∣ wrap_int n :=
    ⟨Int.dvd_of_tmod_eq_zero, Int.tmod_eq_zero_of_dvd⟩
  rw [h1]
  unfold wrap_int
  norm_num
  omega

/-! ## One invocation and runs -/

theorem samples_eq (pk : Peek) : (pk.length / 4) % 2 ^ 32 = pk.length / 4 := by
  have h := pk.length_lt
  exact Nat.mod_eq_of_lt (by omega)

theorem run_snoc (E : Env) (pks : List Peek) (pk : Peek) (s : State) :
    run E (pks ++ [pk]) s = stream_read_callback E pk (run E pks s) := by
  simp [run, List.foldl_append]

theorem run_take_succ (E : Env) (pks : List Peek) (k : Nat) (pk : Peek)
    (hk : pks[k]? = some pk) (s : State) :
    run E (pks.take (k + 1)) s = stream_read_callback E pk (run E (pks.take k) s) := by
  rw [List.take_succ, hk, Option.toList_some, run_snoc]

theorem callback_main_loop (E : Env) (pk : Peek) (s : State) :
    (stream_read_callback E pk s).__main_loop = wrap_int (s.__main_loop + 1) := by
  unfold stream_read_callback decay
  by_cases h : pk.ret < 0 <;> simp [h]

theorem callback_levels_fail (E : Env) (pk : Peek) (s : State) (h : pk.ret < 0) :
    (stream_read_callback E pk s).levels = (decay s).levels := by
  unfold stream_read_callback
  simp [h]

theorem callback_levels_ok (E : Env) (pk : Peek) (s : State) (h : 0 ≤ pk.ret) (c : Nat)
    (hc : c < nchan) :
    (stream_read_callback E pk s).levels c
      = (chan_samples pk c).foldl max ((decay s).levels c) := by
  unfold stream_read_callback
  simp only [not_lt.mpr h, if_false, samples_eq, sample_loop_apply, if_pos hc]
  simp [chan_samples, frames]

theorem callback_rendered (E : Env) (pk : Peek) (s : State) :
    (stream_read_callback E pk s).rendered
      = if pk.ret < 0 then s.rendered
        else s.rendered ++ [percent_of E.fl (stream_read_callback E pk s).levels] := by
  unfold stream_read_callback decay
  by_cases h : pk.ret < 0 <;> simp [h]

theorem run_main_loop (E : Env) (pks : List Peek) (s : State) :
    (run E pks s).__main_loop = wrap_int (wrap_int s.__main_loop + pks.length)
      ∨ (pks = [] ∧ (run E pks s).__main_loop = s.__main_loop) := by
  induction pks using List.reverseRecOn with
  | nil => right; exact ⟨rfl, rfl⟩
  | append_singleton l pk ih =>
    left
    rw [run_snoc, callback_main_loop]
    rcases ih with h | ⟨h1, h2⟩
    · rw [h, wrap_int_succ, List.length_append, List.length_singleton]
      push_cast
      ring_nf
    · subst h1
      rw [h2]
      simp only [List.nil_append, List.length_singleton, Nat.cast_one]
      rw [wrap_int_succ]

theorem run_init_main_loop (E : Env) (pks : List Peek) :
    (run E pks init).__main_loop = wrap_int pks.length := by
  rcases run_main_loop E pks init with h | ⟨h1, h2⟩
  · rw [h]
    simp [init, wrap_int]
  · subst h1
    rw [h2]
    simp [init, wrap_int]

/-! ## Windows of fragments -/

theorem window_boundary (pks : List Peek) (k : Nat) (pk : Peek) (hk : pks[k]? = some pk)
    (h : k % 32 = 0) : window pks k = [pk] := by
  have hlen : k < pks.length := by
    rcases Nat.lt_or_ge k pks.length with h1 | h1
    · exact h1
    · rw [List.getElem?_eq_none h1] at hk
      cases hk
  have hd : 32 * (k / 32) = k := by omega
  unfold window
  rw [hd, List.take_succ, hk, Option.toList_some,
    List.drop_append_of_le_length (by rw [List.length_take]; omega)]
  have : (List.take k pks).length = k := by rw [List.length_take]; omega
  rw [List.drop_eq_nil_of_le (by omega)]
  rfl

theorem window_succ (pks : List Peek) (k : Nat) (pk : Peek) (hk : pks[k + 1]? = some pk)
    (h : (k + 1) % 32 ≠ 0) : window pks (k + 1) = window pks k ++ [pk] := by
  have hlen : k + 1 < pks.length := by
    rcases Nat.lt_or_ge (k + 1) pks.length with h1 | h1
    · exact h1
    · rw [List.getElem?_eq_none h1] at hk
      cases hk
  have hd : 32 * ((k + 1) / 32) = 32 * (k / 32) := by omega
  unfold window
  rw [hd, List.take_succ, hk, Option.toList_some,
    List.drop_append_of_le_length (by rw [List.length_take]; omega)]

/-! ## Peaks -/

theorem foldl_max_ge_init (xs : List ℚ) (a : ℚ) : a ≤ xs.foldl max a := by
  induction xs generalizing a with
  | nil => exact le_refl _
  | cons x xs ih => exact le_trans (le_max_left a x) (ih (max a x))

theorem foldl_max_ge_mem (xs : List ℚ) (a x : ℚ) (hx : x ∈ xs) : x ≤ xs.foldl max a := by
  induction xs generalizing a with
  | nil => cases hx
  | cons y ys ih =>
    rcases List.mem_cons.mp hx with h | h
    · subst h
      exact le_trans (le_max_right a x) (foldl_max_ge_init ys (max a x))
    · exact ih (max a y) h

theorem foldl_max_mem (xs : List ℚ) (a : ℚ) : xs.foldl max a = a ∨ xs.foldl max a ∈ xs := by
  induction xs generalizing a with
  | nil => left; rfl
  | cons y ys ih =>
    rw [List.foldl_cons]
    rcases ih (max a y) with h | h
    · rcases max_choice a y with h1 | h1
      · left; rw [h, h1]
      · right; rw [h, h1]; exact List.mem_cons_self _ _
    · right; exact List.mem_cons_of_mem _ h

theorem foldl_max_le (xs : List ℚ) (a b : ℚ) (ha : a ≤ b) (hxs : ∀ x ∈ xs, x ≤ b) :
    xs.foldl max a ≤ b := by
  rcases foldl_max_mem xs a with h | h
  · rw [h]; exact ha
  · exact hxs _ h

theorem peak_nonneg (xs : List ℚ) : 0 ≤ peak xs := foldl_max_ge_init xs 0

theorem peak_append (xs ys : List ℚ) : peak (xs ++ ys) = ys.foldl max (peak xs) := by
  unfold peak
  rw [List.foldl_append]

theorem chan_samples_nonneg (pk : Peek) (c : Nat) : ∀ x ∈ chan_samples pk c, 0 ≤ x := by
  intro x hx
  unfold chan_samples at hx
  rcases List.mem_map.mp hx with ⟨f, _, rfl⟩
  exact abs_nonneg _

theorem window_samples_nonneg (pks : List Peek) (k c : Nat) :
    ∀ x ∈ window_samples pks k c, 0 ≤ x := by
  intro x hx
  unfold window_samples at hx
  rcases List.mem_flatMap.mp hx with ⟨pk, _, h⟩
  exact chan_samples_nonneg pk c x h

theorem decay_levels (s : State) :
    (decay s).levels = if Int.tmod s.__main_loop 32 = 0 then fun _ => 0 else s.levels := rfl

theorem getElem?_of_lt (pks : List Peek) (k : Nat) (hk : k < pks.length) :
    ∃ pk, pks[k]? = some pk ∧ pk ∈ pks :=
  ⟨pks[k], List.getElem?_eq_getElem hk, List.getElem_mem hk⟩

theorem length_take_succ (pks : List Peek) (k : Nat) (hk : k < pks.length) :
    (pks.take (k + 1)).length = k + 1 := by
  rw [List.length_take]
  omega

/-- After the fragment of index `k` of a run of successful reads, each channel
level is the peak of the window of that fragment. -/
theorem levels_window (E : Env) (pks : List Peek) (hok : ∀ pk ∈ pks, 0 ≤ pk.ret)
    (k : Nat) (hk : k < pks.length) (c : Nat) (hc : c < nchan) :
    (run E (pks.take (k + 1)) init).levels c = peak (window_samples pks k c) := by
  induction k with
  | zero =>
    obtain ⟨pk, hpk, hmem⟩ := getElem?_of_lt pks 0 hk
    rw [run_take_succ E pks 0 pk hpk, callback_levels_ok E pk _ (hok pk hmem) c hc,
      decay_levels]
    simp only [List.take_zero, run, List.foldl_nil]
    have h0 : Int.tmod init.__main_loop 32 = 0 := by decide
    rw [if_pos h0]
    unfold window_samples
    rw [window_boundary pks 0 pk hpk rfl]
    simp [peak]
  | succ k ih =>
    obtain ⟨pk, hpk, hmem⟩ := getElem?_of_lt pks (k + 1) hk
    have hk1 : k < pks.length := by omega
    rw [run_take_succ E pks (k + 1) pk hpk, callback_levels_ok E pk _ (hok pk hmem) c hc,
      decay_levels, run_init_main_loop, length_take_succ pks k hk1]
    by_cases hb : (k + 1) % 32 = 0
    · rw [if_pos ((tmod_wrap_int (k + 1)).mpr hb)]
      unfold window_samples
      rw [window_boundary pks (k + 1) pk hpk hb]
      simp [peak]
    · rw [if_neg (fun h => hb ((tmod_wrap_int (k + 1)).mp h)), ih hk1]
      unfold window_samples
      rw [window_succ pks k pk hpk hb, List.flatMap_append, peak_append]
      simp

theorem window_subset (pks : List Peek) (j k : Nat) (hjk : j ≤ k) (hw : j / 32 = k / 32) :
    window pks j ⊆ window pks k := by
  unfold window
  rw [hw]
  exact ((List.take_sublist_take_left pks (by omega : j + 1 ≤ k + 1)).drop _).subset

theorem window_samples_subset (pks : List Peek) (j k c : Nat) (hjk : j ≤ k)
    (hw : j / 32 = k / 32) : window_samples pks j c ⊆ window_samples pks k c := by
  intro x hx
  unfold window_samples at hx ⊢
  rcases List.mem_flatMap.mp hx with ⟨pk, hpk, h⟩
  exact List.mem_flatMap.mpr ⟨pk, window_subset pks j k hjk hw hpk, h⟩

/-! ## C1: the levels are the peaks of the window -/

/-- C1: in a run of successfully read stereo fragments started from the initial
state, after the fragment of index `k` the level of channel `c` is the maximum
of `|sample|` over the samples of channel `c` in the complete frames of the
fragments from the most recent reset boundary up to fragment `k`: it bounds all
of them, it is one of them when there is any and `0` when there is none; it is
never negative, and it does not decrease from fragment `j` to fragment `k` when
both lie between the same two reset boundaries. -/
theorem levels_are_window_peak (E : Env) (pks : List Peek) (hok : ∀ pk ∈ pks, 0 ≤ pk.ret)
    (k : Nat) (hk : k < pks.length) (c : Nat) (hc : c < nchan) :
    (run E (pks.take (k + 1)) init).levels c = peak (window_samples pks k c)
    ∧ (∀ x ∈ window_samples pks k c, x ≤ (run E (pks.take (k + 1)) init).levels c)
    ∧ (window_samples pks k c ≠ [] →
        (run E (pks.take (k + 1)) init).levels c ∈ window_samples pks k c)
    ∧ (window_samples pks k c = [] → (run E (pks.take (k + 1)) init).levels c = 0)
    ∧ 0 ≤ (run E (pks.take (k + 1)) init).levels c
    ∧ (∀ j, j ≤ k → j / 32 = k / 32 →
        (run E (pks.take (j + 1)) init).levels c
          ≤ (run E (pks.take (k + 1)) init).levels c) := by
  have hL := levels_window E pks hok k hk c hc
  rw [hL]
  refine ⟨rfl, ?_, ?_, ?_, peak_nonneg _, ?_⟩
  · intro x hx
    exact foldl_max_ge_mem _ 0 x hx
  · intro hne
    rcases foldl_max_mem (window_samples pks k c) 0 with h | h
    · obtain ⟨y, ys, hy⟩ := List.exists_cons_of_ne_nil hne
      have hy0 : 0 ≤ y := window_samples_nonneg pks k c y (by rw [hy]; exact List.mem_cons_self _ _)
      have hyle : y ≤ peak (window_samples pks k c) :=
        foldl_max_ge_mem _ 0 y (by rw [hy]; exact List.mem_cons_self _ _)
      unfold peak at hyle ⊢
      rw [h] at hyle ⊢
      have : y = 0 := le_antisymm hyle hy0
      rw [← this, hy]
      exact List.mem_cons_self _ _
    · exact h
  · intro he
    rw [he]
    rfl
  · intro j hj hw
    rw [levels_window E pks hok j (by omega) c hc]
    exact foldl_max_le _ 0 _ (peak_nonneg _)
      (fun x hx => foldl_max_ge_mem _ 0 x (window_samples_subset pks j k c hj hw hx))

/-- Witness for C1: two fragments, the level of channel 0 after the second. -/
theorem levels_are_window_peak_witness :
    (run f32_env ([frag_a, frag_b].take (1 + 1)) init).levels 0
      = peak (window_samples [frag_a, frag_b] 1 0) :=
  (levels_are_window_peak f32_env [frag_a, frag_b] (by
    intro pk hpk
    simp only [List.mem_cons, List.mem_singleton, List.mem_nil_iff, or_false] at hpk
    rcases hpk with rfl | rfl <;> decide) 1 (by decide) 0 (by decide)).1

/-! ## C7: the renderer -/

theorem progress_fill_eq (level i : Nat) (out : List Char) (h : i ≤ level) :
    progress_fill level i out = (level, out ++ List.replicate (level - i) '#') := by
  generalize hn : level - i = n
  induction n generalizing i out with
  | zero =>
    have hi : ¬ i < level := by omega
    have : i = level := by omega
    rw [progress_fill, if_neg hi, this]
    simp
  | succ n ih =>
    have hi : i < level := by omega
    rw [progress_fill, if_pos hi, ih (i + 1) _ (by omega) (by omega)]
    simp [List.replicate_succ]

theorem progress_pad_eq (i : Nat) (out : List Char) (h : i ≤ 100) :
    progress_pad i out = (100, out ++ List.replicate (100 - i) ' ') := by
  generalize hn : 100 - i = n
  induction n generalizing i out with
  | zero =>
    have hi : ¬ i < 100 := by omega
    have : i = 100 := by omega
    rw [progress_pad, if_neg hi, this]
    simp
  | succ n ih =>
    have hi : i < 100 := by omega
    rw [progress_pad, if_pos hi, ih (i + 1) _ (by omega) (by omega)]
    simp [List.replicate_succ]

theorem digits_no_newline : ∀ p, p < 101 → '\n' ∉ Nat.toDigits 10 p := by
  decide

/-- C7: for a percent `p` with `0 ≤ p ≤ 100`, `progress p` appends to standard
output exactly `[`, then `p` characters `#`, then `100 - p` spaces, then `]`, a
space, the decimal digits of `p`, `%`, two spaces and a carriage return; what it
writes holds no newline, and the bar between the brackets is 100 characters wide. -/
theorem progress_writes_bar (p : Nat) (hp : p ≤ 100) (out : List Char) :
    progress p out
      = out ++ ('[' :: (List.replicate p '#' ++ List.replicate (100 - p) ' ')
          ++ (']' :: ' ' :: Nat.toDigits 10 p ++ ['%', ' ', ' ', '\r']))
    ∧ '\n' ∉ ('[' :: (List.replicate p '#' ++ List.replicate (100 - p) ' ')
          ++ (']' :: ' ' :: Nat.toDigits 10 p ++ ['%', ' ', ' ', '\r']))
    ∧ (List.replicate p '#' ++ List.replicate (100 - p) ' ').length = 100 := by
  refine ⟨?_, ?_, ?_⟩
  · unfold progress
    simp only [progress_fill_eq p 0 _ (Nat.zero_le _), progress_pad_eq p _ hp, Nat.sub_zero]
    have hd : fmt_d p = Nat.toDigits 10 p := by
      unfold fmt_d
      rw [if_pos (by omega)]
    rw [hd]
    simp
  · have hd := digits_no_newline p (by omega)
    simp only [List.mem_cons, List.mem_append, List.mem_replicate, not_or]
    simp [hd]
  · simp
    omega

/-- Witness for C7 at `p = 40`. -/
theorem progress_writes_bar_witness :
    progress 40 [] = ("[########################################"
      ++ "                                                            ] 40%  \r").toList :=
  (progress_writes_bar 40 (by decide) []).1.trans (by decide)

/-! ## C2: a failing read -/

/-- Counterexample to C2: on the first invocation a failing read changes the
levels, from the initial `-1.0` to `0.0`. -/
theorem peek_failure_changes_levels :
    ¬ ((stream_read_callback f32_env peek_failed init).levels = init.levels) := by
  intro h
  have h0 := congrFun h 0
  rw [callback_levels_fail f32_env peek_failed init (by decide), decay_levels] at h0
  have hz : Int.tmod init.__main_loop 32 = 0 := by decide
  rw [if_pos hz] at h0
  simp [init] at h0

/-- C2, amended: when `pa_stream_peek` fails, `stream_read_callback` renders
nothing, releases nothing and writes one diagnostic; the levels after the call
are those left by the decay step (all zero when the fragment counter before the
call is a multiple of 32, the levels before the call otherwise), and the
fragment counter has advanced by one. -/
theorem peek_failure_keeps_decayed_levels (E : Env) (pk : Peek) (s : State)
    (h : pk.ret < 0) :
    (stream_read_callback E pk s).stdout = s.stdout
    ∧ (stream_read_callback E pk s).rendered = s.rendered
    ∧ (stream_read_callback E pk s).drops = s.drops
    ∧ (stream_read_callback E pk s).stderr
        = s.stderr ++ ("pa_stream_peek() failed: ".toList ++ E.strerror)
    ∧ (stream_read_callback E pk s).__main_loop = wrap_int (s.__main_loop + 1)
    ∧ (Int.tmod s.__main_loop 32 = 0 → (stream_read_callback E pk s).levels = fun _ => 0)
    ∧ (Int.tmod s.__main_loop 32 ≠ 0 → (stream_read_callback E pk s).levels = s.levels) := by
  refine ⟨?_, ?_, ?_, ?_, callback_main_loop E pk s, ?_, ?_⟩
  · simp [stream_read_callback, decay, h]
  · simp [stream_read_callback, decay, h]
  · simp [stream_read_callback, decay, h]
  · simp [stream_read_callback, decay, h]
  · intro hz
    rw [callback_levels_fail E pk s h, decay_levels, if_pos hz]
  · intro hz
    rw [callback_levels_fail E pk s h, decay_levels, if_neg hz]

/-- Witness for the amended C2: a failing read on the state reached after one
fragment. -/
theorem peek_failure_keeps_decayed_levels_witness :
    (stream_read_callback f32_env peek_failed (run f32_env [frag_a] init)).levels
      = (run f32_env [frag_a] init).levels :=
  (peek_failure_keeps_decayed_levels f32_env peek_failed (run f32_env [frag_a] init)
    (by decide)).2.2.2.2.2.2 (by
      rw [run_init_main_loop]
      decide)

/-! ## C3 and C4: the device-info callback -/

theorem sink_info_callback_created (E : Env) (si : Option SinkInfo) (is_last : Int)
    (s : State) :
    (context_get_sink_info_callback E si is_last s).created.length
      = s.created.length + (if valid_result (si, is_last) then 1 else 0) := by
  unfold context_get_sink_info_callback valid_result
  by_cases h : is_last < 0
  · have h2 : ¬ (0 ≤ is_last) := by omega
    simp [h, h2, show_error]
  · have h2 : 0 ≤ is_last := by omega
    cases si with
    | none => simp [h]
    | some si => simp [h, h2, create_stream]

/-- Counterexample to C3: two valid results create two streams. -/
theorem second_result_creates_second_stream :
    ¬ ((sink_info_run f32_env [(some sink_a, 0), (some sink_a, 0)] init).created.length ≤ 1) := by
  decide

/-- C3, amended: the callback holds no guard on an existing stream, so every
valid result (sink information present, `is_last ≥ 0`) creates a stream: the
number of streams created by a sequence of notifications is the number of valid
results in it, and each valid result makes its own stream the current one, also
when a stream exists already. -/
theorem streams_created_eq_valid_results (E : Env) (evs : List (Option SinkInfo × Int))
    (s : State) :
    (sink_info_run E evs s).created.length
        = s.created.length + (evs.filter valid_result).length
    ∧ ∀ (si : SinkInfo) (is_last : Int), 0 ≤ is_last →
        (context_get_sink_info_callback E (some si) is_last s).stream
          = some { spec := { format := SampleFormat.FLOAT32, rate := si.sample_spec.rate,
                             channels := si.sample_spec.channels },
                   cmap := si.channel_map, source := si.monitor_source_name } := by
  constructor
  · induction evs generalizing s with
    | nil => simp [sink_info_run]
    | cons ev evs ih =>
      have hstep : sink_info_run E (ev :: evs) s
          = sink_info_run E evs (context_get_sink_info_callback E ev.1 ev.2 s) := rfl
      rw [hstep, ih, sink_info_callback_created, List.filter_cons]
      by_cases hv : valid_result ev = true
      · simp [hv]
        omega
      · simp [hv]
  · intro si is_last h
    have h2 : ¬ is_last < 0 := by omega
    simp [context_get_sink_info_callback, h2, create_stream]

/-- Witness for the amended C3: one valid result followed by the end marker
creates one stream. -/
theorem streams_created_eq_valid_results_witness :
    (sink_info_run f32_env [(some sink_a, 0), (none, 1)] init).created.length = 1 :=
  (streams_created_eq_valid_results f32_env [(some sink_a, 0), (none, 1)] init).1.trans
    (by decide)

/-- Counterexample to C4: an end marker alone reports nothing. -/
theorem end_marker_reports_nothing :
    ¬ ((context_get_sink_info_callback f32_env none 1 init).stderr ≠ init.stderr) := by
  decide

/-- C4, amended: an end marker without sink information (`is_last ≥ 0`, null
`si`) leaves the whole state unchanged: no stream is created and nothing is
reported; a query error (`is_last < 0`) writes the diagnostic
`Failed to get sink information: <error>` and creates no stream. -/
theorem sink_info_end_marker_and_error (E : Env) (si : Option SinkInfo) (is_last : Int)
    (s : State) :
    (0 ≤ is_last → context_get_sink_info_callback E none is_last s = s)
    ∧ (is_last < 0 →
        (context_get_sink_info_callback E si is_last s).stderr
            = s.stderr ++ ("Failed to get sink information".toList ++ ": ".toList
                ++ E.strerror ++ "\n".toList)
        ∧ (context_get_sink_info_callback E si is_last s).created = s.created
        ∧ (context_get_sink_info_callback E si is_last s).stream = s.stream) := by
  constructor
  · intro h
    have h2 : ¬ is_last < 0 := by omega
    simp [context_get_sink_info_callback, h2]
  · intro h
    simp [context_get_sink_info_callback, h, show_error]

/-- Witness for the amended C4: an end marker, and a query error that arrives
with sink information. -/
theorem sink_info_end_marker_and_error_witness :
    context_get_sink_info_callback f32_env none 1 init = init
    ∧ (context_get_sink_info_callback f32_env (some sink_a) (-1) init).created
        = init.created :=
  ⟨(sink_info_end_marker_and_error f32_env none 1 init).1 (by decide),
   ((sink_info_end_marker_and_error f32_env (some sink_a) (-1) init).2 (by decide)).2.1⟩

/-! ## Rounding -/

theorem IsRounding.zero {fl : ℚ → ℚ} (h : IsRounding fl) : fl 0 = 0 := by
  have := h.exact_int 0 (by norm_num)
  simpa using this

theorem IsRounding.one {fl : ℚ → ℚ} (h : IsRounding fl) : fl 1 = 1 := by
  have := h.exact_int 1 (by norm_num)
  simpa using this

theorem IsRounding.two {fl : ℚ → ℚ} (h : IsRounding fl) : fl 2 = 2 := by
  have := h.exact_int 2 (by norm_num)
  simpa using this

theorem IsRounding.hundred {fl : ℚ → ℚ} (h : IsRounding fl) : fl 100 = 100 := by
  have := h.exact_int 100 (by norm_num)
  simpa using this

theorem IsRounding.nonneg {fl : ℚ → ℚ} (h : IsRounding fl) {x : ℚ} (hx : 0 ≤ x) :
    0 ≤ fl x := by
  have := h.mono hx
  rwa [h.zero] at this

/-! ## Binary32 rounding -/

theorem round_even_intCast (z : Int) : round_even (z : ℚ) = z := by
  unfold round_even
  rw [Int.floor_intCast]
  norm_num

theorem round_even_bounds (x : ℚ) : ⌊x⌋ ≤ round_even x ∧ round_even x ≤ ⌊x⌋ + 1 := by
  unfold round_even
  split_ifs <;> constructor <;> omega

theorem round_even_mono {x y : ℚ} (h : x ≤ y) : round_even x ≤ round_even y := by
  have hf : ⌊x⌋ ≤ ⌊y⌋ := Int.floor_mono h
  rcases lt_or_eq_of_le hf with hlt | heq
  · have h1 := (round_even_bounds x).2
    have h2 := (round_even_bounds y).1
    omega
  · unfold round_even
    rw [heq]
    have hr : x - (⌊y⌋ : ℚ) ≤ y - (⌊y⌋ : ℚ) := by linarith
    split_ifs <;> first | omega | (exfalso; linarith)

theorem log_two_spec (x : ℚ) (hx : 0 < x) :
    (2 : ℚ) ^ Int.log 2 x ≤ x ∧ x < (2 : ℚ) ^ (Int.log 2 x + 1) := by
  have h1 := Int.zpow_log_le_self (b := 2) (by norm_num) hx
  have h2 := Int.lt_zpow_succ_log_self (b := 2) (by norm_num) x
  push_cast at h1 h2
  exact ⟨h1, h2⟩

theorem binade_upper (x : ℚ) (hx : 0 < x) : x < (2 : ℚ) ^ (binade x + 1) := by
  have h := (log_two_spec x hx).2
  have hle : Int.log 2 x + 1 ≤ binade x + 1 := by
    unfold binade
    have := le_max_left (Int.log 2 x) (-126)
    omega
  exact lt_of_lt_of_le h (zpow_le_zpow_right₀ (by norm_num) hle)

theorem binade_lower (x : ℚ) (hx : 0 < x) (he : -126 < binade x) :
    (2 : ℚ) ^ binade x ≤ x := by
  have h := (log_two_spec x hx).1
  have heq : binade x = Int.log 2 x := by
    unfold binade at he ⊢
    rcases le_total (Int.log 2 x) (-126) with h1 | h1
    · rw [max_eq_right h1] at he
      omega
    · exact max_eq_left h1
  rw [heq]
  exact h

theorem binade_mono {x y : ℚ} (hx : 0 < x) (h : x ≤ y) : binade x ≤ binade y := by
  unfold binade
  exact max_le_max (Int.log_mono_right hx h) (le_refl _)

theorem two_zpow_pos (e : Int) : (0 : ℚ) < 2 ^ e := zpow_pos (by norm_num) e

theorem fl32_mag_nonneg (x : ℚ) (hx : 0 ≤ x) : 0 ≤ fl32_mag x := by
  unfold fl32_mag
  have h0 : (0 : ℚ) ≤ x / 2 ^ (binade x - 23) := div_nonneg hx (le_of_lt (two_zpow_pos _))
  have h1 : round_even ((0 : Int) : ℚ) ≤ round_even (x / 2 ^ (binade x - 23)) :=
    round_even_mono (by simpa using h0)
  rw [round_even_intCast] at h1
  exact mul_nonneg (by exact_mod_cast h1) (le_of_lt (two_zpow_pos _))

theorem fl32_mag_le (x : ℚ) (hx : 0 < x) : fl32_mag x ≤ 2 ^ (binade x + 1) := by
  unfold fl32_mag
  have hu := two_zpow_pos (binade x - 23)
  have hsplit : (2 : ℚ) ^ (binade x + 1) = 2 ^ (24 : Int) * 2 ^ (binade x - 23) := by
    rw [← zpow_add₀ (by norm_num)]
    congr 1
    ring
  have hc : ((2 ^ 24 : Int) : ℚ) = (2 : ℚ) ^ (24 : Int) := by norm_num
  have hdiv : x / 2 ^ (binade x - 23) ≤ ((2 ^ 24 : Int) : ℚ) := by
    rw [div_le_iff₀ hu, hc, ← hsplit]
    exact le_of_lt (binade_upper x hx)
  have h1 := round_even_mono hdiv
  rw [round_even_intCast] at h1
  rw [hsplit, ← hc]
  apply mul_le_mul_of_nonneg_right _ (le_of_lt hu)
  exact_mod_cast h1

theorem le_fl32_mag (x : ℚ) (hx : 0 < x) (he : -126 < binade x) :
    2 ^ binade x ≤ fl32_mag x := by
  unfold fl32_mag
  have hu := two_zpow_pos (binade x - 23)
  have hsplit : (2 : ℚ) ^ binade x = 2 ^ (23 : Int) * 2 ^ (binade x - 23) := by
    rw [← zpow_add₀ (by norm_num)]
    congr 1
    ring
  have hc : ((2 ^ 23 : Int) : ℚ) = (2 : ℚ) ^ (23 : Int) := by norm_num
  have hdiv : ((2 ^ 23 : Int) : ℚ) ≤ x / 2 ^ (binade x - 23) := by
    rw [le_div_iff₀ hu, hc, ← hsplit]
    exact binade_lower x hx he
  have h1 := round_even_mono hdiv
  rw [round_even_intCast] at h1
  rw [hsplit, ← hc]
  apply mul_le_mul_of_nonneg_right _ (le_of_lt hu)
  exact_mod_cast h1

theorem fl32_mag_mono {x y : ℚ} (hx : 0 ≤ x) (h : x ≤ y) : fl32_mag x ≤ fl32_mag y := by
  rcases eq_or_lt_of_le hx with h0 | hpos
  · subst h0
    have hz : fl32_mag 0 = 0 := by
      unfold fl32_mag
      have : round_even ((0 : Int) : ℚ) = 0 := round_even_intCast 0
      simp at this
      simp [this]
    rw [hz]
    exact fl32_mag_nonneg y h
  · have hy : 0 < y := lt_of_lt_of_le hpos h
    rcases lt_or_eq_of_le (binade_mono hpos h) with hlt | heq
    · have h1 := fl32_mag_le x hpos
      have h2 := le_fl32_mag y hy (by
        have : -126 ≤ binade x := le_max_right _ _
        omega)
      have h3 : (2 : ℚ) ^ (binade x + 1) ≤ 2 ^ binade y :=
        zpow_le_zpow_right₀ (by norm_num) (by omega)
      linarith
    · unfold fl32_mag
      rw [heq]
      have hu := two_zpow_pos (binade y - 23)
      apply mul_le_mul_of_nonneg_right _ (le_of_lt hu)
      have := round_even_mono (div_le_div_of_nonneg_right h (le_of_lt hu))
      exact_mod_cast this

theorem fl32_monotone : Monotone fl32 := by
  intro x y h
  unfold fl32
  by_cases hx : 0 ≤ x
  · have hy : 0 ≤ y := le_trans hx h
    rw [if_pos hx, if_pos hy]
    exact fl32_mag_mono hx h
  · rw [if_neg hx]
    have hx' : 0 ≤ -x := by linarith
    by_cases hy : 0 ≤ y
    · rw [if_pos hy]
      have := fl32_mag_nonneg (-x) hx'
      have := fl32_mag_nonneg y hy
      linarith
    · rw [if_neg hy]
      have := fl32_mag_mono (show 0 ≤ -y by linarith) (show -y ≤ -x by linarith)
      linarith

theorem fl32_mag_of_grid (x : ℚ) (z : Int) (h : x / 2 ^ (binade x - 23) = z) :
    fl32_mag x = x := by
  unfold fl32_mag
  rw [h, round_even_intCast, ← h]
  exact div_mul_cancel₀ x (ne_of_gt (two_zpow_pos _))

theorem fl32_mag_natCast (m : Nat) (hm : m ≤ 2 ^ 24) : fl32_mag (m : ℚ) = m := by
  rcases Nat.eq_zero_or_pos m with h0 | hpos
  · subst h0
    apply fl32_mag_of_grid _ 0
    simp
  · have hx : (0 : ℚ) < m := by exact_mod_cast hpos
    have hL0 : 0 ≤ Int.log 2 (m : ℚ) := by
      have h1 : ((2 : Nat) : ℚ) ^ (0 : Int) ≤ (m : ℚ) := by
        rw [zpow_zero]
        exact_mod_cast hpos
      exact (Int.zpow_le_iff_le_log (by norm_num) hx).mp h1
    have hL24 : Int.log 2 (m : ℚ) < 25 := by
      have h1 : (m : ℚ) < ((2 : Nat) : ℚ) ^ (25 : Int) := by
        have : m < 2 ^ 25 := by omega
        have h2 : ((m : Nat) : ℚ) < ((2 ^ 25 : Nat) : ℚ) := by exact_mod_cast this
        norm_num at h2 ⊢
        exact h2
      exact (Int.lt_zpow_iff_log_lt (by norm_num) hx).mp h1
    have hb : binade (m : ℚ) = Int.log 2 (m : ℚ) := by
      unfold binade
      exact max_eq_left (by omega)
    rcases lt_or_ge (Int.log 2 (m : ℚ)) 24 with hlt | hge
    · obtain ⟨k, hk⟩ : ∃ k : Nat, (k : Int) = 23 - Int.log 2 (m : ℚ) :=
        ⟨(23 - Int.log 2 (m : ℚ)).toNat, Int.toNat_of_nonneg (by omega)⟩
      apply fl32_mag_of_grid _ ((m * 2 ^ k : Nat) : Int)
      have he : binade (m : ℚ) - 23 = -(k : Int) := by omega
      rw [he, zpow_neg, zpow_natCast, div_inv_eq_mul]
      push_cast
      rfl
    · have heq : Int.log 2 (m : ℚ) = 24 := by omega
      have h24 : (2 : ℚ) ^ (24 : Int) ≤ m := by
        have := (log_two_spec (m : ℚ) hx).1
        rwa [heq] at this
      have hm' : m = 2 ^ 24 := by
        have h2 : ((2 ^ 24 : Nat) : ℚ) ≤ (m : ℚ) := by
          norm_num at h24 ⊢
          exact h24
        have : 2 ^ 24 ≤ m := by exact_mod_cast h2
        omega
      apply fl32_mag_of_grid _ (2 ^ 23)
      rw [hb, heq, hm']
      norm_num

/-- Round-to-nearest-even of binary32 is monotone and exact on the integers up
to `2 ^ 24` in magnitude. -/
theorem fl32_isRounding : IsRounding fl32 := by
  refine ⟨fl32_monotone, ?_⟩
  intro n hn
  unfold fl32
  by_cases h0 : 0 ≤ n
  · have : (0 : ℚ) ≤ (n : ℚ) := by exact_mod_cast h0
    rw [if_pos this]
    obtain ⟨m, rfl⟩ := Int.eq_ofNat_of_zero_le h0
    have hm : m ≤ 2 ^ 24 := by
      rw [abs_of_nonneg h0] at hn
      exact_mod_cast hn
    simpa using fl32_mag_natCast m hm
  · have : ¬ (0 : ℚ) ≤ (n : ℚ) := by
      intro h
      exact h0 (by exact_mod_cast h)
    rw [if_neg this]
    obtain ⟨m, hm⟩ := Int.eq_ofNat_of_zero_le (show 0 ≤ -n by omega)
    have hm24 : m ≤ 2 ^ 24 := by
      rw [abs_of_neg (by omega), hm] at hn
      exact_mod_cast hn
    have hcast : -(n : ℚ) = (m : ℚ) := by
      have : ((-n : Int) : ℚ) = ((m : Int) : ℚ) := by rw [hm]
      simpa using this
    rw [hcast, fl32_mag_natCast m hm24, ← hcast]
    ring

theorem binade_eq (x : ℚ) (e : Int) (hx : 0 < x) (h1 : 2 ^ e ≤ x) (h2 : x < 2 ^ (e + 1))
    (he : -126 ≤ e) : binade x = e := by
  have hlog : Int.log 2 x = e := by
    apply le_antisymm
    · have : Int.log 2 x < e + 1 :=
        (Int.lt_zpow_iff_log_lt (by norm_num) hx).mp (by push_cast; exact h2)
      omega
    · exact (Int.zpow_le_iff_le_log (by norm_num) hx).mp (by push_cast; exact h1)
  unfold binade
  rw [hlog]
  exact max_eq_left he

theorem fl32_eval (x : ℚ) (e z : Int) (hx : 0 < x) (h1 : 2 ^ e ≤ x) (h2 : x < 2 ^ (e + 1))
    (he : -126 ≤ e) (hz : round_even (x / 2 ^ (e - 23)) = z) :
    fl32 x = z * 2 ^ (e - 23) := by
  unfold fl32 fl32_mag
  rw [if_pos (le_of_lt hx), binade_eq x e hx h1 h2 he, hz]

theorem fl32_of_grid (x : ℚ) (e z : Int) (hx : 0 < x) (h1 : 2 ^ e ≤ x) (h2 : x < 2 ^ (e + 1))
    (he : -126 ≤ e) (hz : x / 2 ^ (e - 23) = z) : fl32 x = x := by
  rw [fl32_eval x e z hx h1 h2 he (by rw [hz, round_even_intCast]), ← hz]
  exact div_mul_cancel₀ x (ne_of_gt (two_zpow_pos _))

theorem fl32_zero : fl32 0 = 0 := fl32_isRounding.zero

/-- The float nearest to `0.3` is `f32_0_3`. -/
theorem fl32_three_tenths : fl32 (3 / 10) = f32_0_3 := by
  rw [fl32_eval (3 / 10) (-2) 10066330 (by norm_num) (by norm_num) (by norm_num) (by norm_num)
    (by norm_num [round_even])]
  norm_num [f32_0_3]

/-- The float nearest to `0.01` is `f32_0_01`. -/
theorem fl32_one_hundredth : fl32 (1 / 100) = f32_0_01 := by
  rw [fl32_eval (1 / 100) (-7) 10737418 (by norm_num) (by norm_num) (by norm_num) (by norm_num)
    (by norm_num [round_even])]
  norm_num [f32_0_01]

/-! ## The downmix -/

theorem average_loop_eq (fl : ℚ → ℚ) (levels : Nat → ℚ) :
    average_loop fl levels 0 0 = fl (fl (0 + levels 0) + levels 1) := by
  have h0 : (0 : Nat) < nchan := by decide
  have h1 : (0 : Nat) + 1 < nchan := by decide
  have h2 : ¬ ((0 : Nat) + 1 + 1 < nchan) := by decide
  rw [average_loop, if_pos h0, average_loop, if_pos h1, average_loop, if_neg h2]

theorem percent_of_eq (fl : ℚ → ℚ) (levels : Nat → ℚ) :
    percent_of fl levels = to_unsigned (scaled_average fl levels) := rfl

theorem scaled_average_eq (fl : ℚ → ℚ) (levels : Nat → ℚ) :
    scaled_average fl levels = fl (fl (fl (fl (0 + levels 0) + levels 1) / 2) * 100) := by
  unfold scaled_average
  rw [average_loop_eq]
  norm_num [nchan]

theorem to_unsigned_of_nonneg (x : ℚ) (h0 : 0 ≤ x) (h1 : ⌊x⌋ < 2 ^ 32) :
    ((to_unsigned x : Nat) : Int) = ⌊x⌋ := by
  unfold to_unsigned trunc
  rw [if_pos h0]
  have hf : 0 ≤ ⌊x⌋ := Int.floor_nonneg.mpr h0
  rw [Int.emod_eq_of_lt hf h1, Int.toNat_of_nonneg hf]

theorem scaled_average_bounds (fl : ℚ → ℚ) (hfl : IsRounding fl) (levels : Nat → ℚ)
    (h0 : 0 ≤ levels 0 ∧ levels 0 ≤ 1) (h1 : 0 ≤ levels 1 ∧ levels 1 ≤ 1) :
    0 ≤ scaled_average fl levels ∧ scaled_average fl levels ≤ 100 := by
  rw [scaled_average_eq]
  have a1 : 0 ≤ fl (0 + levels 0) := hfl.nonneg (by linarith)
  have b1 : fl (0 + levels 0) ≤ 1 := by
    have := hfl.mono (show 0 + levels 0 ≤ 1 by linarith)
    rwa [hfl.one] at this
  have a2 : 0 ≤ fl (fl (0 + levels 0) + levels 1) := hfl.nonneg (by linarith)
  have b2 : fl (fl (0 + levels 0) + levels 1) ≤ 2 := by
    have := hfl.mono (show fl (0 + levels 0) + levels 1 ≤ 2 by linarith)
    rwa [hfl.two] at this
  have a3 : 0 ≤ fl (fl (fl (0 + levels 0) + levels 1) / 2) := hfl.nonneg (by linarith)
  have b3 : fl (fl (fl (0 + levels 0) + levels 1) / 2) ≤ 1 := by
    have := hfl.mono (show fl (fl (0 + levels 0) + levels 1) / 2 ≤ 1 by linarith)
    rwa [hfl.one] at this
  constructor
  · exact hfl.nonneg (by linarith)
  · have := hfl.mono (show fl (fl (fl (0 + levels 0) + levels 1) / 2) * 100 ≤ 100 by linarith)
    rwa [hfl.hundred] at this

theorem fl32_half : fl32 (1 / 2) = 1 / 2 :=
  fl32_of_grid _ (-1) (2 ^ 23) (by norm_num) (by norm_num) (by norm_num) (by norm_num)
    (by norm_num)

theorem scaled_half_three_tenths :
    fl32 (fl32 (fl32 (1 / 2 + f32_0_3) / 2) * 100) = 40 := by
  have g2 : fl32 (1 / 2 + f32_0_3) = 1 / 2 + f32_0_3 :=
    fl32_of_grid _ (-1) 13421773 (by norm_num [f32_0_3]) (by norm_num [f32_0_3])
      (by norm_num [f32_0_3]) (by norm_num) (by norm_num [f32_0_3])
  have g3 : fl32 ((1 / 2 + f32_0_3) / 2) = (1 / 2 + f32_0_3) / 2 :=
    fl32_of_grid _ (-2) 13421773 (by norm_num [f32_0_3]) (by norm_num [f32_0_3])
      (by norm_num [f32_0_3]) (by norm_num) (by norm_num [f32_0_3])
  rw [g2, g3, fl32_eval _ 5 10485760 (by norm_num [f32_0_3]) (by norm_num [f32_0_3])
    (by norm_num [f32_0_3]) (by norm_num) (by norm_num [round_even, f32_0_3])]
  norm_num

/-- In binary32 the product `average * 100` is rounded before it is truncated:
for the levels `{0.01f, 0.01f}` the percent is 1, while the floor of the exact
value of `((l0 + l1) / 2) * 100` is 0. -/
theorem percent_rounds_before_truncation :
    percent_of fl32 (pair f32_0_01 f32_0_01) = 1
    ∧ ⌊(f32_0_01 + f32_0_01) / 2 * 100⌋ = 0 := by
  constructor
  · have g1 : fl32 f32_0_01 = f32_0_01 :=
      fl32_of_grid _ (-7) 10737418 (by norm_num [f32_0_01]) (by norm_num [f32_0_01])
        (by norm_num [f32_0_01]) (by norm_num) (by norm_num [f32_0_01])
    have g2 : fl32 (f32_0_01 + f32_0_01) = f32_0_01 + f32_0_01 :=
      fl32_of_grid _ (-6) 10737418 (by norm_num [f32_0_01]) (by norm_num [f32_0_01])
        (by norm_num [f32_0_01]) (by norm_num) (by norm_num [f32_0_01])
    have g3 : fl32 ((f32_0_01 + f32_0_01) / 2) = (f32_0_01 + f32_0_01) / 2 :=
      fl32_of_grid _ (-7) 10737418 (by norm_num [f32_0_01]) (by norm_num [f32_0_01])
        (by norm_num [f32_0_01]) (by norm_num) (by norm_num [f32_0_01])
    have g4 : fl32 ((f32_0_01 + f32_0_01) / 2 * 100) = 1 := by
      rw [fl32_eval _ (-1) 16777216 (by norm_num [f32_0_01]) (by norm_num [f32_0_01])
        (by norm_num [f32_0_01]) (by norm_num) (by norm_num [round_even, f32_0_01])]
      norm_num
    rw [percent_of_eq, scaled_average_eq]
    have hp0 : pair f32_0_01 f32_0_01 0 = f32_0_01 := rfl
    have hp1 : pair f32_0_01 f32_0_01 1 = f32_0_01 := rfl
    rw [hp0, hp1, zero_add, g1, g2, g3, g4]
    norm_num [to_unsigned, trunc]
  · norm_num [f32_0_01]

/-! ## C5: the percent -/

/-- Counterexample to C5: for the levels `{2^33, 2^33}`, which a fragment with
such samples leaves behind, the percent is not `floor(((l0 + l1) / 2) * 100)`:
that value does not fit an `unsigned int`. -/
theorem percent_wraps_for_huge_levels :
    (run f32_env [frag_huge] init).levels 0 = 2 ^ 33
    ∧ (run f32_env [frag_huge] init).levels 1 = 2 ^ 33
    ∧ ¬ (((percent_of f32_env.fl (run f32_env [frag_huge] init).levels : Nat) : Int)
        = ⌊((2 : ℚ) ^ 33 + 2 ^ 33) / 2 * 100⌋) := by
  have hrun : run f32_env [frag_huge] init = stream_read_callback f32_env frag_huge init :=
    rfl
  have hz : Int.tmod init.__main_loop 32 = 0 := by decide
  have hL0 : (run f32_env [frag_huge] init).levels 0 = 2 ^ 33 := by
    rw [hrun, callback_levels_ok _ _ _ (by decide) 0 (by decide), decay_levels, if_pos hz]
    norm_num [chan_samples, frames, frag_huge, nchan]
  have hL1 : (run f32_env [frag_huge] init).levels 1 = 2 ^ 33 := by
    rw [hrun, callback_levels_ok _ _ _ (by decide) 1 (by decide), decay_levels, if_pos hz]
    norm_num [chan_samples, frames, frag_huge, nchan]
  have e1 : fl32 (0 + 2 ^ 33) = 2 ^ 33 := by
    rw [zero_add]
    exact fl32_of_grid _ 33 (2 ^ 23) (by norm_num) (by norm_num) (by norm_num) (by norm_num)
      (by norm_num)
  have e2 : fl32 (2 ^ 33 + 2 ^ 33) = 2 ^ 33 + 2 ^ 33 :=
    fl32_of_grid _ 34 (2 ^ 23) (by norm_num) (by norm_num) (by norm_num) (by norm_num)
      (by norm_num)
  have e3 : fl32 ((2 ^ 33 + 2 ^ 33) / 2) = (2 ^ 33 + 2 ^ 33) / 2 :=
    fl32_of_grid _ 33 (2 ^ 23) (by norm_num) (by norm_num) (by norm_num) (by norm_num)
      (by norm_num)
  have e4 : fl32 ((2 ^ 33 + 2 ^ 33) / 2 * 100) = (2 ^ 33 + 2 ^ 33) / 2 * 100 :=
    fl32_of_grid _ 39 13107200 (by norm_num) (by norm_num) (by norm_num) (by norm_num)
      (by norm_num)
  refine ⟨hL0, hL1, ?_⟩
  rw [percent_of_eq, scaled_average_eq, hL0, hL1]
  have hfl : f32_env.fl = fl32 := rfl
  rw [hfl, e1, e2, e3, e4]
  norm_num [to_unsigned, trunc]

/-- C5, amended: after a successfully read fragment the percent passed to the
renderer is the one computed from the levels then held; for every pair of
non-negative levels `{l0, l1}`, the first a float, it equals
`floor(((l0 + l1) / 2) * 100)`, each operation rounded by the float rounding,
whenever that value is below `2 ^ 32`; levels `{1.0, 1.0}` give 100 and
`{0.0, 0.0}` give 0, and levels `{0.5, 0.3}` give 40, both in exact arithmetic
and in binary32 (where the second level is the float `0.3f`). -/
theorem percent_is_floor_of_scaled_average (E : Env) (hfl : IsRounding E.fl) :
    (∀ (pk : Peek) (s : State), 0 ≤ pk.ret →
        (stream_read_callback E pk s).rendered
          = s.rendered ++ [percent_of E.fl (stream_read_callback E pk s).levels])
    ∧ (∀ levels : Nat → ℚ, 0 ≤ levels 0 → 0 ≤ levels 1 → E.fl (levels 0) = levels 0 →
        ⌊E.fl (E.fl (E.fl (levels 0 + levels 1) / 2) * 100)⌋ < 2 ^ 32 →
        ((percent_of E.fl levels : Nat) : Int)
          = ⌊E.fl (E.fl (E.fl (levels 0 + levels 1) / 2) * 100)⌋)
    ∧ percent_of E.fl (pair 1 1) = 100
    ∧ percent_of E.fl (pair 0 0) = 0
    ∧ percent_of id (pair (1 / 2) (3 / 10)) = 40
    ∧ percent_of fl32 (pair (1 / 2) f32_0_3) = 40 := by
  have hgen : ∀ levels : Nat → ℚ, 0 ≤ levels 0 → 0 ≤ levels 1 →
      E.fl (levels 0) = levels 0 →
      ⌊E.fl (E.fl (E.fl (levels 0 + levels 1) / 2) * 100)⌋ < 2 ^ 32 →
      ((percent_of E.fl levels : Nat) : Int)
        = ⌊E.fl (E.fl (E.fl (levels 0 + levels 1) / 2) * 100)⌋ := by
    intro levels h0 h1 hf hb
    have hs : scaled_average E.fl levels
        = E.fl (E.fl (E.fl (levels 0 + levels 1) / 2) * 100) := by
      rw [scaled_average_eq, zero_add, hf]
    rw [percent_of_eq, hs]
    apply to_unsigned_of_nonneg _ _ hb
    exact hfl.nonneg (mul_nonneg (hfl.nonneg (div_nonneg (hfl.nonneg (by linarith))
      (by norm_num))) (by norm_num))
  have hp : ∀ a b : ℚ, pair a b 0 = a ∧ pair a b 1 = b := fun _ _ => ⟨rfl, rfl⟩
  refine ⟨?_, hgen, ?_, ?_, ?_, ?_⟩
  · intro pk s hok
    rw [callback_rendered, if_neg (not_lt.mpr hok)]
  · have hv : E.fl (E.fl (E.fl (1 + 1) / 2) * 100) = 100 := by
      norm_num [hfl.one, hfl.two, hfl.hundred]
    have h := hgen (pair 1 1) (by norm_num [pair]) (by norm_num [pair]) hfl.one
      (by rw [(hp 1 1).1, (hp 1 1).2, hv]; norm_num)
    rw [(hp 1 1).1, (hp 1 1).2, hv] at h
    norm_num at h
    exact_mod_cast h
  · have hv : E.fl (E.fl (E.fl (0 + 0) / 2) * 100) = 0 := by
      norm_num [hfl.zero]
    have h := hgen (pair 0 0) (le_refl _) (le_refl _) hfl.zero
      (by rw [(hp 0 0).1, (hp 0 0).2, hv]; norm_num)
    rw [(hp 0 0).1, (hp 0 0).2, hv] at h
    norm_num at h
    exact_mod_cast h
  · rw [percent_of_eq, scaled_average_eq]
    norm_num [pair, to_unsigned, trunc]
    rfl
  · rw [percent_of_eq, scaled_average_eq, (hp _ _).1, (hp _ _).2, zero_add, fl32_half,
      scaled_half_three_tenths]
    norm_num [to_unsigned, trunc]
    rfl

/-- Witness for the amended C5: binary32 arithmetic and the levels
`{0.5, 0.3f}`. -/
theorem percent_is_floor_of_scaled_average_witness :
    ((percent_of fl32 (pair (1 / 2) f32_0_3) : Nat) : Int)
      = ⌊fl32 (fl32 (fl32 (1 / 2 + f32_0_3) / 2) * 100)⌋ :=
  (percent_is_floor_of_scaled_average f32_env fl32_isRounding).2.1 (pair (1 / 2) f32_0_3)
    (by norm_num [pair]) (by norm_num [pair, f32_0_3]) fl32_half
    (by
      have h : fl32 (fl32 (fl32 (pair (1 / 2) f32_0_3 0 + pair (1 / 2) f32_0_3 1) / 2) * 100)
          = 40 := scaled_half_three_tenths
      show ⌊fl32 (fl32 (fl32 (pair (1 / 2) f32_0_3 0 + pair (1 / 2) f32_0_3 1) / 2) * 100)⌋
        < 2 ^ 32
      rw [h]
      norm_num)

/-! ## C6: partial frames -/

theorem chan_samples_congr (pk pk' : Peek) (c : Nat) (hc : c < nchan)
    (hfr : frames pk' = frames pk) (hp : ∀ i, i < frames pk * nchan → pk'.p i = pk.p i) :
    chan_samples pk' c = chan_samples pk c := by
  unfold chan_samples
  rw [hfr]
  apply List.map_congr_left
  intro f hf
  have hf' : f < frames pk := List.mem_range.mp hf
  have hlt : f * nchan + c < frames pk * nchan := by
    have h1 : (f + 1) * nchan ≤ frames pk * nchan := Nat.mul_le_mul_right _ hf'
    have h2 : (f + 1) * nchan = f * nchan + nchan := by ring
    omega
  rw [hp _ hlt]

theorem callback_levels_high (E : Env) (pk : Peek) (s : State) (h : 0 ≤ pk.ret) (c : Nat)
    (hc : ¬ c < nchan) :
    (stream_read_callback E pk s).levels c = (decay s).levels c := by
  unfold stream_read_callback
  simp only [not_lt.mpr h, if_false, samples_eq, sample_loop_apply, if_neg hc]

/-- C6: for every successfully read fragment (in particular one whose byte
length is not a multiple of `4 * nchan`) the level computation uses exactly the
first `floor(floor(length / 4) / nchan)` frames: each channel level becomes the
maximum of the level left by the decay step and of `|sample|` over the samples of
that channel in these frames, so it bounds every one of them; the memory past
these frames (the samples of a trailing partial frame, stray bytes) has no
influence, as any fragment with the same number of complete frames and the same
samples in them gives the same levels; and an empty fragment leaves the levels
as they were after the decay step. -/
theorem partial_frame_is_dropped (E : Env) (pk : Peek) (s : State) (hok : 0 ≤ pk.ret) :
    (∀ c, c < nchan →
        (stream_read_callback E pk s).levels c
          = (chan_samples pk c).foldl max ((decay s).levels c))
    ∧ (∀ c, c < nchan → ∀ f, f < pk.length / 4 / nchan →
        |pk.p (f * nchan + c)| ≤ (stream_read_callback E pk s).levels c)
    ∧ (∀ pk' : Peek, 0 ≤ pk'.ret → pk'.length / 4 / nchan = pk.length / 4 / nchan →
        (∀ i, i < pk.length / 4 / nchan * nchan → pk'.p i = pk.p i) →
        (stream_read_callback E pk' s).levels = (stream_read_callback E pk s).levels)
    ∧ (pk.length = 0 → (stream_read_callback E pk s).levels = (decay s).levels) := by
  refine ⟨fun c hc => callback_levels_ok E pk s hok c hc, ?_, ?_, ?_⟩
  · intro c hc f hf
    rw [callback_levels_ok E pk s hok c hc]
    apply foldl_max_ge_mem
    unfold chan_samples
    exact List.mem_map.mpr ⟨f, List.mem_range.mpr hf, rfl⟩
  · intro pk' hok' hfr hp
    funext c
    by_cases hc : c < nchan
    · rw [callback_levels_ok E pk' s hok' c hc, callback_levels_ok E pk s hok c hc,
        chan_samples_congr pk pk' c hc hfr hp]
    · rw [callback_levels_high E pk' s hok' c hc, callback_levels_high E pk s hok c hc]
  · intro hlen
    funext c
    by_cases hc : c < nchan
    · rw [callback_levels_ok E pk s hok c hc]
      have : chan_samples pk c = [] := by
        unfold chan_samples frames
        rw [hlen]
        rfl
      rw [this]
      rfl
    · exact callback_levels_high E pk s hok c hc

/-- Witness for C6: the 13-byte fragment `frag_a` gives the levels of its one
complete frame. -/
theorem partial_frame_is_dropped_witness :
    (stream_read_callback f32_env frag_a_whole init).levels
      = (stream_read_callback f32_env frag_a init).levels :=
  (partial_frame_is_dropped f32_env frag_a init (by decide)).2.2.1 frag_a_whole (by decide)
    (by decide) (by
      intro i hi
      have hi2 : i < 2 := hi
      interval_cases i <;> rfl)

/-! ## C8: the first fragment -/

/-- C8: from the initial state (levels `-1.0`, counter `0`) the first invocation
resets the levels before any sample is accumulated.  For a successfully read
first fragment each channel level is the peak of that channel's samples in the
fragment, the percent rendered is the one computed from these levels, and the
same levels result from any other state whose counter is `0`; no level is
negative after the first invocation, whether the read succeeds or fails; and an
empty first fragment renders `0`. -/
theorem first_fragment_hides_sentinel (E : Env) (pk : Peek) :
    (∀ c, 0 ≤ (stream_read_callback E pk init).levels c)
    ∧ (0 ≤ pk.ret →
        (stream_read_callback E pk init).levels
            = (fun c => if c < nchan then peak (chan_samples pk c) else 0)
        ∧ (stream_read_callback E pk init).rendered
            = [percent_of E.fl (fun c => if c < nchan then peak (chan_samples pk c) else 0)]
        ∧ (stream_read_callback E pk init).stdout
            = progress
                (percent_of E.fl (fun c => if c < nchan then peak (chan_samples pk c) else 0)) []
        ∧ (∀ s : State, s.__main_loop = 0 →
            (stream_read_callback E pk s).levels = (stream_read_callback E pk init).levels)
        ∧ (IsRounding E.fl → pk.length = 0 →
            (stream_read_callback E pk init).rendered = [0])) := by
  have hz : Int.tmod init.__main_loop 32 = 0 := by decide
  have hlev : 0 ≤ pk.ret → (stream_read_callback E pk init).levels
      = (fun c => if c < nchan then peak (chan_samples pk c) else 0) := by
    intro hok
    funext c
    by_cases hc : c < nchan
    · rw [callback_levels_ok E pk init hok c hc, decay_levels, if_pos hz, if_pos hc]
      rfl
    · rw [callback_levels_high E pk init hok c hc, decay_levels, if_pos hz, if_neg hc]
  have hren : 0 ≤ pk.ret → (stream_read_callback E pk init).rendered
      = [percent_of E.fl (stream_read_callback E pk init).levels] := by
    intro hok
    simp [stream_read_callback, not_lt.mpr hok, decay, init]
  have hout : 0 ≤ pk.ret → (stream_read_callback E pk init).stdout
      = progress (percent_of E.fl (stream_read_callback E pk init).levels) [] := by
    intro hok
    simp [stream_read_callback, not_lt.mpr hok, decay, init]
  constructor
  · intro c
    by_cases hok : 0 ≤ pk.ret
    · rw [hlev hok]
      by_cases hc : c < nchan
      · simp only [if_pos hc]
        exact peak_nonneg _
      · simp only [if_neg hc]
        exact le_refl _
    · rw [callback_levels_fail E pk init (by omega), decay_levels, if_pos hz]
  · intro hok
    refine ⟨hlev hok, ?_, ?_, ?_, ?_⟩
    · rw [hren hok, hlev hok]
    · rw [hout hok, hlev hok]
    · intro s hs
      have hzs : Int.tmod s.__main_loop 32 = 0 := by rw [hs]; decide
      funext c
      by_cases hc : c < nchan
      · rw [callback_levels_ok E pk s hok c hc, callback_levels_ok E pk init hok c hc,
          decay_levels, decay_levels, if_pos hz, if_pos hzs]
      · rw [callback_levels_high E pk s hok c hc, callback_levels_high E pk init hok c hc,
          decay_levels, decay_levels, if_pos hz, if_pos hzs]
    · intro hfl hlen
      rw [hren hok, hlev hok]
      have hcs : ∀ c, chan_samples pk c = [] := by
        intro c
        unfold chan_samples frames
        rw [hlen]
        rfl
      have hzero : (fun c => if c < nchan then peak (chan_samples pk c) else 0)
          = fun _ => (0 : ℚ) := by
        funext c
        rw [hcs c]
        simp [peak]
      rw [hzero, percent_of_eq, scaled_average_eq]
      norm_num [hfl.zero, to_unsigned, trunc]

/-- Witness for C8: the first fragment `frag_a`. -/
theorem first_fragment_hides_sentinel_witness :
    (stream_read_callback f32_env frag_a init).levels
      = (fun c => if c < nchan then peak (chan_samples frag_a c) else 0) :=
  ((first_fragment_hides_sentinel f32_env frag_a).2 (by decide)).1

/-! ## C9 and C10: ranges -/

theorem chan_samples_le_one (pk : Peek) (hr : in_range pk) (c : Nat) (hc : c < nchan) :
    ∀ x ∈ chan_samples pk c, x ≤ 1 := by
  intro x hx
  unfold chan_samples at hx
  rcases List.mem_map.mp hx with ⟨f, hf, rfl⟩
  have hf' : f < pk.length / 4 / nchan := List.mem_range.mp hf
  apply hr
  have h1 : (f + 1) * nchan ≤ pk.length / 4 / nchan * nchan := Nat.mul_le_mul_right _ hf'
  have h2 : pk.length / 4 / nchan * nchan ≤ pk.length / 4 := Nat.div_mul_le_self _ _
  have h3 : (f + 1) * nchan = f * nchan + nchan := by ring
  omega

theorem callback_levels_nonneg (E : Env) (pk : Peek) (s : State)
    (h : ∀ c, 0 ≤ (decay s).levels c) : ∀ c, 0 ≤ (stream_read_callback E pk s).levels c := by
  intro c
  by_cases hok : 0 ≤ pk.ret
  · by_cases hc : c < nchan
    · rw [callback_levels_ok E pk s hok c hc]
      exact le_trans (h c) (foldl_max_ge_init _ _)
    · rw [callback_levels_high E pk s hok c hc]
      exact h c
  · rw [callback_levels_fail E pk s (by omega)]
    exact h c

theorem callback_levels_le_one (E : Env) (pk : Peek) (s : State) (hr : in_range pk)
    (h : ∀ c, (decay s).levels c ≤ 1) : ∀ c, (stream_read_callback E pk s).levels c ≤ 1 := by
  intro c
  by_cases hok : 0 ≤ pk.ret
  · by_cases hc : c < nchan
    · rw [callback_levels_ok E pk s hok c hc]
      exact foldl_max_le _ _ _ (h c) (chan_samples_le_one pk hr c hc)
    · rw [callback_levels_high E pk s hok c hc]
      exact h c
  · rw [callback_levels_fail E pk s (by omega)]
    exact h c

theorem run_levels_nonneg (E : Env) (pks : List Peek) (hne : pks ≠ []) :
    ∀ c, 0 ≤ (run E pks init).levels c := by
  induction pks using List.reverseRecOn with
  | nil => exact absurd rfl hne
  | append_singleton l pk ih =>
    rw [run_snoc]
    apply callback_levels_nonneg
    intro c
    rw [decay_levels]
    split
    · exact le_refl _
    · next hz =>
      by_cases hl : l = []
      · subst hl
        exact absurd (show Int.tmod init.__main_loop 32 = 0 by decide) hz
      · exact ih hl c

theorem run_levels_le_one (E : Env) (pks : List Peek) (hne : pks ≠ [])
    (hr : ∀ pk ∈ pks, in_range pk) : ∀ c, (run E pks init).levels c ≤ 1 := by
  induction pks using List.reverseRecOn with
  | nil => exact absurd rfl hne
  | append_singleton l pk ih =>
    rw [run_snoc]
    apply callback_levels_le_one E pk _ (hr pk (by simp))
    intro c
    rw [decay_levels]
    split
    · exact zero_le_one
    · next hz =>
      by_cases hl : l = []
      · subst hl
        exact absurd (show Int.tmod init.__main_loop 32 = 0 by decide) hz
      · exact ih hl (fun pk hpk => hr pk (List.mem_append_left _ hpk)) c

/-- Counterexample to C9: after a fragment whose samples are `2.0` the level of
channel 0 is `2.0`, outside `[0.0, 1.0]`. -/
theorem level_exceeds_one :
    ¬ ((run f32_env [frag_loud] init).levels 0 ≤ 1) := by
  have hrun : run f32_env [frag_loud] init = stream_read_callback f32_env frag_loud init :=
    rfl
  have hz : Int.tmod init.__main_loop 32 = 0 := by decide
  rw [hrun, callback_levels_ok _ _ _ (by decide) 0 (by decide), decay_levels, if_pos hz]
  norm_num [chan_samples, frames, frag_loud, nchan]

/-- C9, amended: after every invocation of `stream_read_callback` in a run from
the initial state, whether the reads succeed or fail, each channel level is
non-negative; it is at most `1.0` when every sample of every fragment lies in
`[-1, 1]`.  The code does not clamp, so larger samples give larger levels. -/
theorem levels_nonneg_and_bounded (E : Env) (pks : List Peek) (hne : pks ≠ []) (c : Nat) :
    0 ≤ (run E pks init).levels c
    ∧ ((∀ pk ∈ pks, in_range pk) → (run E pks init).levels c ≤ 1) :=
  ⟨run_levels_nonneg E pks hne c, fun hr => run_levels_le_one E pks hne hr c⟩

theorem in_range_frag_a : in_range frag_a := by
  intro i hi
  have hi2 : i < 3 := hi
  interval_cases i <;> norm_num [frag_a, abs_le]

theorem in_range_frag_b : in_range frag_b := by
  intro i hi
  have hi2 : i < 4 := hi
  interval_cases i <;> norm_num [frag_b, abs_le]

theorem in_range_peek_failed : in_range peek_failed := by
  intro i hi
  have hi2 : i < 0 := hi
  omega

/-- Witness for the amended C9: a run of a fragment, a failed read and another
fragment, all samples in `[-1, 1]`. -/
theorem levels_nonneg_and_bounded_witness :
    0 ≤ (run f32_env [frag_a, peek_failed, frag_b] init).levels 0
    ∧ (run f32_env [frag_a, peek_failed, frag_b] init).levels 0 ≤ 1 :=
  ⟨(levels_nonneg_and_bounded f32_env [frag_a, peek_failed, frag_b]
      (List.cons_ne_nil _ _) 0).1,
   (levels_nonneg_and_bounded f32_env [frag_a, peek_failed, frag_b]
      (List.cons_ne_nil _ _) 0).2 (by
        intro pk hpk
        simp only [List.mem_cons, List.mem_singleton, List.mem_nil_iff, or_false] at hpk
        rcases hpk with rfl | rfl | rfl
        · exact in_range_frag_a
        · exact in_range_peek_failed
        · exact in_range_frag_b)⟩

theorem to_unsigned_le_hundred (x : ℚ) (h0 : 0 ≤ x) (h1 : x ≤ 100) : to_unsigned x ≤ 100 := by
  have hfl : ⌊x⌋ ≤ 100 := by
    have := Int.floor_mono h1
    simpa using this
  have h := to_unsigned_of_nonneg x h0 (by omega)
  omega

theorem run_rendered_le (E : Env) (hfl : IsRounding E.fl) (pks : List Peek)
    (hr : ∀ pk ∈ pks, in_range pk) : ∀ q ∈ (run E pks init).rendered, q ≤ 100 := by
  induction pks using List.reverseRecOn with
  | nil =>
    intro q hq
    simp [run, init] at hq
  | append_singleton l pk ih =>
    have ihl := ih (fun pk hpk => hr pk (List.mem_append_left _ hpk))
    intro q hq
    rw [run_snoc, callback_rendered] at hq
    split at hq
    · exact ihl q hq
    · rcases List.mem_append.mp hq with h | h
      · exact ihl q h
      · rw [List.mem_singleton] at h
        rw [h, ← run_snoc, percent_of_eq]
        have hne : l ++ [pk] ≠ [] := by simp
        have hb := scaled_average_bounds E.fl hfl (run E (l ++ [pk]) init).levels
          ⟨run_levels_nonneg E _ hne 0, run_levels_le_one E _ hne hr 0⟩
          ⟨run_levels_nonneg E _ hne 1, run_levels_le_one E _ hne hr 1⟩
        exact to_unsigned_le_hundred _ hb.1 hb.2

/-- C10: when the float rounding is monotone and exact on small integers, then
in every run from the initial state whose samples all lie in `[-1, 1]` every
percent passed to `progress` lies in `0..100`, and after every invocation the
value `average * 100` that is converted to `unsigned int` lies in `[0, 100]`;
and there is a fragment with a sample of magnitude greater than `1` for which
the percent passed exceeds `100`, as the code does not clamp. -/
theorem percent_in_range_unless_loud (E : Env) (hfl : IsRounding E.fl) :
    (∀ pks : List Peek, (∀ pk ∈ pks, in_range pk) →
        (∀ q ∈ (run E pks init).rendered, q ≤ 100)
        ∧ (pks ≠ [] → 0 ≤ scaled_average E.fl (run E pks init).levels
            ∧ scaled_average E.fl (run E pks init).levels ≤ 100))
    ∧ (∃ pk : Peek, 0 ≤ pk.ret ∧ (∃ i, i < pk.length / 4 ∧ 1 < |pk.p i|)
        ∧ ∃ q ∈ (run E [pk] init).rendered, 100 < q) := by
  constructor
  · intro pks hr
    refine ⟨run_rendered_le E hfl pks hr, fun hne => ?_⟩
    exact scaled_average_bounds E.fl hfl (run E pks init).levels
      ⟨run_levels_nonneg E _ hne 0, run_levels_le_one E _ hne hr 0⟩
      ⟨run_levels_nonneg E _ hne 1, run_levels_le_one E _ hne hr 1⟩
  · refine ⟨frag_loud, by decide, ⟨0, by decide, by norm_num [frag_loud]⟩, ?_⟩
    have hrun : run E [frag_loud] init = stream_read_callback E frag_loud init := rfl
    have hz : Int.tmod init.__main_loop 32 = 0 := by decide
    have hL0 : (stream_read_callback E frag_loud init).levels 0 = 2 := by
      rw [callback_levels_ok _ _ _ (by decide) 0 (by decide), decay_levels, if_pos hz]
      norm_num [chan_samples, frames, frag_loud, nchan]
    have hL1 : (stream_read_callback E frag_loud init).levels 1 = 2 := by
      rw [callback_levels_ok _ _ _ (by decide) 1 (by decide), decay_levels, if_pos hz]
      norm_num [chan_samples, frames, frag_loud, nchan]
    have h4 : E.fl 4 = 4 := by
      have := hfl.exact_int 4 (by norm_num)
      simpa using this
    have h200 : E.fl 200 = 200 := by
      have := hfl.exact_int 200 (by norm_num)
      simpa using this
    refine ⟨200, ?_, by decide⟩
    rw [hrun, callback_rendered, if_neg (by decide), percent_of_eq, scaled_average_eq, hL0, hL1]
    have hv : E.fl (E.fl (E.fl (E.fl (0 + 2) + 2) / 2) * 100) = 200 := by
      norm_num [hfl.two, h4, h200]
    rw [hv]
    have : to_unsigned 200 = 200 := by
      norm_num [to_unsigned, trunc]
      rfl
    rw [this]
    simp [init]

/-- Witness for C10: exact arithmetic and a run of two fragments with a failed
read between them. -/
theorem percent_in_range_unless_loud_witness :
    0 ≤ scaled_average f32_env.fl (run f32_env [frag_a, peek_failed, frag_b] init).levels
    ∧ scaled_average f32_env.fl (run f32_env [frag_a, peek_failed, frag_b] init).levels
        ≤ 100 :=
  ((percent_in_range_unless_loud f32_env fl32_isRounding).1 [frag_a, peek_failed, frag_b] (by
    intro pk hpk
    simp only [List.mem_cons, List.mem_singleton, List.mem_nil_iff, or_false] at hpk
    rcases hpk with rfl | rfl | rfl
    · exact in_range_frag_a
    · exact in_range_peek_failed
    · exact in_range_frag_b)).2 (List.cons_ne_nil _ _)

end VuMeter
